import Mathlib

/-!
Coincidence counting between two spike trains (`sjemea.c`).

A shallow embedding of the three routines of `src/sjemea.c`

* `count_overlap`  (lines 31-66),
* `bin_overlap`    (lines 68-117),
* `bin2_overlap`   (lines 120-190),

followed by theorems about them.

Modelling conventions.

* `Sfloat` timestamps and `dt` are exact rationals (`ℚ`).  The only places
  where the C code can leave the finite numbers are the two divisions
  `dt / nbins` and `delta_t / bin_wid`; their results are values of the type
  `Fval` below (a finite rational, an infinity, or NaN).
* Converting a non-finite `double` to `int` has no defined result in C.  The
  embedding takes that result as a parameter `nan_int : Int`; every theorem
  holds for every value of it.
* The C `int` counters (`count`, the histogram cells, the loop indices) are
  unbounded integers here: the counters never exceed `na * nb`.
* The arrays `a`, `b` and `bins` are lists; the lengths `na`, `nb` and
  `nbins` are passed next to them, as in the C signatures.  A read outside a
  list yields `0` and an increment outside `bins` changes nothing; neither
  happens when the lengths passed are the lengths of the lists.
* The diagnostic `Rprintf` of the out-of-range branch writes to the console
  and changes no variable; that branch leaves the state as it is.
* Two instrumented copies of the loops serve the claims about the run itself:
  `scan_outer_traced` records every value assigned to `low`, and
  `scan_outer_checked` fails on an array access outside its array.
-/

namespace Sjemea

/-! ## Floating-point values that may be non-finite -/

/-- Result of a `double` division over exact rationals. -/
inductive Fval where
  | fin (q : ℚ)
  | inf
  | nan
deriving DecidableEq

/-- The quotient `x / y` of a finite `x` by `y`, following IEEE 754 for the
divisors `0`, infinity and NaN. -/
def fdiv (x : ℚ) : Fval → Fval
  | Fval.fin y => if y = 0 then (if x = 0 then Fval.nan else Fval.inf) else Fval.fin (x / y)
  | Fval.inf => Fval.fin 0
  | Fval.nan => Fval.nan

/-- The C library function `floor` on a `double`. -/
def ffloor : Fval → Fval
  | Fval.fin q => Fval.fin (⌊q⌋ : ℤ)
  | Fval.inf => Fval.inf
  | Fval.nan => Fval.nan

/-- The cast `(int) x`: truncation toward zero for a finite `x`, and the
parameter `nan_int` for a non-finite one.  The routines apply it to quotients
of pairs inside the window only, which lie in `[0, nbins]` when finite. -/
def to_int (nan_int : ℤ) : Fval → ℤ
  | Fval.fin q => if 0 ≤ q then ⌊q⌋ else ⌈q⌉
  | Fval.inf => nan_int
  | Fval.nan => nan_int

/-- The constant `SMALLVAL` (line 7): `1e-12`. -/
def SMALLVAL : ℚ := 1 / 1000000000000

/-- The statement `bins[k]++`. -/
def incr_bin : List ℤ → ℕ → List ℤ
  | [], _ => []
  | c :: cs, 0 => (c + 1) :: cs
  | c :: cs, k + 1 => c :: incr_bin cs k

/-- The range test and the increment that end the treatment of a pair
(lines 108-112 of `bin_overlap`, lines 174-185 of `bin2_overlap`): a
`bin_num` outside `[0, nbins - 1]` is reported and leaves `bins` as it is, any
other one increments its bin. -/
def bin_store (nbins : ℕ) (bin_num : ℤ) (bins : List ℤ) : List ℤ :=
  if bin_num < 0 ∨ bin_num ≥ nbins then bins
  else incr_bin bins bin_num.toNat

/-! ## `count_overlap` -/

/-- Inner `for` loop of `count_overlap` (lines 55-63), entered with the loop
variable at `sb`; returns the values of `low` and `count` at loop exit.
The assignment `sb = nb` followed by the loop increment leaves `sb = nb + 1`. -/
def count_overlap_inner (b : List ℚ) (nb : ℕ) (alow ahigh : ℚ) (sb low count : ℕ) : ℕ × ℕ :=
  if h : sb < nb then
    if b.getD sb 0 > ahigh then
      count_overlap_inner b nb alow ahigh (nb + 1) low count
    else if b.getD sb 0 ≥ alow then
      count_overlap_inner b nb alow ahigh (sb + 1) low (count + 1)
    else
      count_overlap_inner b nb alow ahigh (sb + 1) sb count
  else (low, count)
termination_by nb - sb
decreasing_by all_goals omega

/-- Outer `for` loop of `count_overlap` (lines 53-64), entered with the loop
variable at `sa`; returns the values of `low` and `count` at loop exit. -/
def count_overlap_outer (a : List ℚ) (na : ℕ) (b : List ℚ) (nb : ℕ) (dt : ℚ)
    (sa low count : ℕ) : ℕ × ℕ :=
  if h : sa < na then
    let alow := a.getD sa 0 - dt
    let ahigh := a.getD sa 0 + dt
    let r := count_overlap_inner b nb alow ahigh low low count
    count_overlap_outer a na b nb dt (sa + 1) r.1 r.2
  else (low, count)
termination_by na - sa
decreasing_by all_goals omega

/-- The routine `count_overlap` (lines 31-66): the value stored in `*res`. -/
def count_overlap (a : List ℚ) (na : ℕ) (b : List ℚ) (nb : ℕ) (dt : ℚ) : ℕ :=
  (count_overlap_outer a na b nb dt 0 0 0).2

/-! ## `bin_overlap` -/

/-- Lines 104-107 of `bin_overlap`: the value of `bin_num` for the pair
`a[sa]`, `b[sb]`, after the correction that puts the maximum value into the
largest bin. -/
def bin_overlap_num (nan_int : ℤ) (max_val : ℚ) (bin_wid : Fval) (nbins : ℕ)
    (asa bsb : ℚ) : ℤ :=
  let delta_t := |bsb - asa|
  let bin_num := to_int nan_int (fdiv delta_t bin_wid)
  if bin_num = nbins ∧ |delta_t - max_val| < SMALLVAL then bin_num - 1 else bin_num

/-- Lines 104-112 of `bin_overlap`: bin one pair `a[sa]`, `b[sb]`. -/
def bin_overlap_pair (nan_int : ℤ) (max_val : ℚ) (bin_wid : Fval) (nbins : ℕ)
    (asa bsb : ℚ) (bins : List ℤ) : List ℤ :=
  bin_store nbins (bin_overlap_num nan_int max_val bin_wid nbins asa bsb) bins

/-- Inner `for` loop of `bin_overlap` (lines 98-115). -/
def bin_overlap_inner (nan_int : ℤ) (max_val : ℚ) (bin_wid : Fval) (nbins : ℕ) (asa : ℚ)
    (b : List ℚ) (nb : ℕ) (alow ahigh : ℚ) (sb low : ℕ) (bins : List ℤ) : ℕ × List ℤ :=
  if h : sb < nb then
    if b.getD sb 0 > ahigh then
      bin_overlap_inner nan_int max_val bin_wid nbins asa b nb alow ahigh (nb + 1) low bins
    else if b.getD sb 0 ≥ alow then
      bin_overlap_inner nan_int max_val bin_wid nbins asa b nb alow ahigh (sb + 1) low
        (bin_overlap_pair nan_int max_val bin_wid nbins asa (b.getD sb 0) bins)
    else
      bin_overlap_inner nan_int max_val bin_wid nbins asa b nb alow ahigh (sb + 1) sb bins
  else (low, bins)
termination_by nb - sb
decreasing_by all_goals omega

/-- Outer `for` loop of `bin_overlap` (lines 96-116). -/
def bin_overlap_outer (nan_int : ℤ) (max_val : ℚ) (bin_wid : Fval) (nbins : ℕ)
    (a : List ℚ) (na : ℕ) (b : List ℚ) (nb : ℕ) (dt : ℚ)
    (sa low : ℕ) (bins : List ℤ) : ℕ × List ℤ :=
  if h : sa < na then
    let alow := a.getD sa 0 - dt
    let ahigh := a.getD sa 0 + dt
    let r := bin_overlap_inner nan_int max_val bin_wid nbins (a.getD sa 0) b nb alow ahigh
      low low bins
    bin_overlap_outer nan_int max_val bin_wid nbins a na b nb dt (sa + 1) r.1 r.2
  else (low, bins)
termination_by na - sa
decreasing_by all_goals omega

/-- The routine `bin_overlap` (lines 68-117): the array `bins` at return. -/
def bin_overlap (nan_int : ℤ) (a : List ℚ) (na : ℕ) (b : List ℚ) (nb : ℕ) (dt : ℚ)
    (bins : List ℤ) (nbins : ℕ) : List ℤ :=
  let max_val := dt
  let bin_wid := fdiv dt (Fval.fin nbins)
  (bin_overlap_outer nan_int max_val bin_wid nbins a na b nb dt 0 0 bins).2

/-! ## `bin2_overlap` -/

/-- Line 164 of `bin2_overlap`: the index `bin_num`, computed through
`floor`. -/
def bin2_num (nan_int : ℤ) (min_val : ℚ) (bin_wid : Fval) (delta_t : ℚ) : ℤ :=
  to_int nan_int (ffloor (fdiv (delta_t - min_val) bin_wid))

/-- Lines 155-173 of `bin2_overlap`: the value of `bin_num` for the pair
`a[sa]`, `b[sb]`, after the correction that fits the maximum value into the
largest bin. -/
def bin2_overlap_num (nan_int : ℤ) (min_val max_val : ℚ) (bin_wid : Fval) (nbins : ℕ)
    (asa bsb : ℚ) : ℤ :=
  let delta_t := bsb - asa
  let bin_num := bin2_num nan_int min_val bin_wid delta_t
  if bin_num = nbins ∧ |delta_t - max_val| < SMALLVAL then bin_num - 1 else bin_num

/-- Lines 155-185 of `bin2_overlap`: bin one pair `a[sa]`, `b[sb]`. -/
def bin2_overlap_pair (nan_int : ℤ) (min_val max_val : ℚ) (bin_wid : Fval) (nbins : ℕ)
    (asa bsb : ℚ) (bins : List ℤ) : List ℤ :=
  bin_store nbins (bin2_overlap_num nan_int min_val max_val bin_wid nbins asa bsb) bins

/-- Inner `for` loop of `bin2_overlap` (lines 149-188). -/
def bin2_overlap_inner (nan_int : ℤ) (min_val max_val : ℚ) (bin_wid : Fval) (nbins : ℕ)
    (asa : ℚ) (b : List ℚ) (nb : ℕ) (alow ahigh : ℚ) (sb low : ℕ) (bins : List ℤ) :
    ℕ × List ℤ :=
  if h : sb < nb then
    if b.getD sb 0 > ahigh then
      bin2_overlap_inner nan_int min_val max_val bin_wid nbins asa b nb alow ahigh (nb + 1) low bins
    else if b.getD sb 0 ≥ alow then
      bin2_overlap_inner nan_int min_val max_val bin_wid nbins asa b nb alow ahigh (sb + 1) low
        (bin2_overlap_pair nan_int min_val max_val bin_wid nbins asa (b.getD sb 0) bins)
    else
      bin2_overlap_inner nan_int min_val max_val bin_wid nbins asa b nb alow ahigh (sb + 1) sb bins
  else (low, bins)
termination_by nb - sb
decreasing_by all_goals omega

/-- Outer `for` loop of `bin2_overlap` (lines 147-189). -/
def bin2_overlap_outer (nan_int : ℤ) (min_val max_val : ℚ) (bin_wid : Fval) (nbins : ℕ)
    (a : List ℚ) (na : ℕ) (b : List ℚ) (nb : ℕ) (dt : ℚ)
    (sa low : ℕ) (bins : List ℤ) : ℕ × List ℤ :=
  if h : sa < na then
    let alow := a.getD sa 0 - dt
    let ahigh := a.getD sa 0 + dt
    let r := bin2_overlap_inner nan_int min_val max_val bin_wid nbins (a.getD sa 0) b nb
      alow ahigh low low bins
    bin2_overlap_outer nan_int min_val max_val bin_wid nbins a na b nb dt (sa + 1) r.1 r.2
  else (low, bins)
termination_by na - sa
decreasing_by all_goals omega

/-- The routine `bin2_overlap` (lines 120-190): the array `bins` at return. -/
def bin2_overlap (nan_int : ℤ) (a : List ℚ) (na : ℕ) (b : List ℚ) (nb : ℕ) (dt : ℚ)
    (bins : List ℤ) (nbins : ℕ) : List ℤ :=
  let min_val := 0 - dt
  let max_val := dt
  let bin_wid := fdiv (2 * dt) (Fval.fin nbins)
  (bin2_overlap_outer nan_int min_val max_val bin_wid nbins a na b nb dt 0 0 bins).2

/-! ## The scan shared by the three routines -/

/-- The inner loop shared by the three routines, with the treatment of a
qualifying element `b[sb]` abstracted to `f`. -/
def scan_inner {σ : Type} (f : ℚ → σ → σ) (b : List ℚ) (nb : ℕ) (alow ahigh : ℚ)
    (sb low : ℕ) (s : σ) : ℕ × σ :=
  if h : sb < nb then
    if b.getD sb 0 > ahigh then
      scan_inner f b nb alow ahigh (nb + 1) low s
    else if b.getD sb 0 ≥ alow then
      scan_inner f b nb alow ahigh (sb + 1) low (f (b.getD sb 0) s)
    else
      scan_inner f b nb alow ahigh (sb + 1) sb s
  else (low, s)
termination_by nb - sb
decreasing_by all_goals omega

/-- The outer loop shared by the three routines, with the treatment of a
qualifying pair `a[sa]`, `b[sb]` abstracted to `f`. -/
def scan_outer {σ : Type} (f : ℚ → ℚ → σ → σ) (a : List ℚ) (na : ℕ) (b : List ℚ) (nb : ℕ)
    (dt : ℚ) (sa low : ℕ) (s : σ) : ℕ × σ :=
  if h : sa < na then
    let r := scan_inner (f (a.getD sa 0)) b nb (a.getD sa 0 - dt) (a.getD sa 0 + dt) low low s
    scan_outer f a na b nb dt (sa + 1) r.1 r.2
  else (low, s)
termination_by na - sa
decreasing_by all_goals omega

/-- The inner loop shared by the three routines, with a ghost variable `lows`
that records, in order, every value the assignment `low = sb` gives to `low`. -/
def scan_inner_traced {σ : Type} (f : ℚ → σ → σ) (b : List ℚ) (nb : ℕ) (alow ahigh : ℚ)
    (sb low : ℕ) (s : σ) (lows : List ℕ) : ℕ × σ × List ℕ :=
  if _h : sb < nb then
    if b.getD sb 0 > ahigh then
      scan_inner_traced f b nb alow ahigh (nb + 1) low s lows
    else if b.getD sb 0 ≥ alow then
      scan_inner_traced f b nb alow ahigh (sb + 1) low (f (b.getD sb 0) s) lows
    else
      scan_inner_traced f b nb alow ahigh (sb + 1) sb s (lows ++ [sb])
  else (low, s, lows)
termination_by nb - sb
decreasing_by all_goals omega

/-- The outer loop shared by the three routines, with the ghost variable
`lows` of `scan_inner_traced`. -/
def scan_outer_traced {σ : Type} (f : ℚ → ℚ → σ → σ) (a : List ℚ) (na : ℕ) (b : List ℚ)
    (nb : ℕ) (dt : ℚ) (sa low : ℕ) (s : σ) (lows : List ℕ) : ℕ × σ × List ℕ :=
  if h : sa < na then
    let r := scan_inner_traced (f (a.getD sa 0)) b nb (a.getD sa 0 - dt) (a.getD sa 0 + dt)
      low low s lows
    scan_outer_traced f a na b nb dt (sa + 1) r.1 r.2.1 r.2.2
  else (low, s, lows)
termination_by na - sa
decreasing_by all_goals omega

/-! ## The binning routines with every array access checked -/

/-- The range test and the increment of `bin_store`, where the increment
`bins[bin_num]++` fails (`none`) when `bin_num` is not an index of `bins`. -/
def bin_store_checked (nbins : ℕ) (bin_num : ℤ) (bins : List ℤ) : Option (List ℤ) :=
  if bin_num < 0 ∨ bin_num ≥ nbins then some bins
  else if bin_num.toNat < bins.length then some (incr_bin bins bin_num.toNat)
  else none

/-- The inner loop shared by the routines, where the read `b[sb]` fails
(`none`) when `sb` is not an index of `b`, and the treatment `f` of a
qualifying element may fail. -/
def scan_inner_checked {σ : Type} (f : ℚ → σ → Option σ) (b : List ℚ) (nb : ℕ)
    (alow ahigh : ℚ) (sb low : ℕ) (s : σ) : Option (ℕ × σ) :=
  if _h : sb < nb then
    match b[sb]? with
    | none => none
    | some bsb =>
      if bsb > ahigh then
        scan_inner_checked f b nb alow ahigh (nb + 1) low s
      else if bsb ≥ alow then
        match f bsb s with
        | none => none
        | some s1 => scan_inner_checked f b nb alow ahigh (sb + 1) low s1
      else
        scan_inner_checked f b nb alow ahigh (sb + 1) sb s
  else some (low, s)
termination_by nb - sb
decreasing_by all_goals omega

/-- The outer loop shared by the routines, where the read `a[sa]` fails
(`none`) when `sa` is not an index of `a`. -/
def scan_outer_checked {σ : Type} (f : ℚ → ℚ → σ → Option σ) (a : List ℚ) (na : ℕ)
    (b : List ℚ) (nb : ℕ) (dt : ℚ) (sa low : ℕ) (s : σ) : Option (ℕ × σ) :=
  if _h : sa < na then
    match a[sa]? with
    | none => none
    | some asa =>
      match scan_inner_checked (f asa) b nb (asa - dt) (asa + dt) low low s with
      | none => none
      | some r => scan_outer_checked f a na b nb dt (sa + 1) r.1 r.2
  else some (low, s)
termination_by na - sa
decreasing_by all_goals omega

/-- The routine `bin_overlap` with every read of `a` and `b` and every
increment of `bins` checked against the bounds of the array: `none` as soon
as one access falls outside. -/
def bin_overlap_checked (nan_int : ℤ) (a : List ℚ) (na : ℕ) (b : List ℚ) (nb : ℕ) (dt : ℚ)
    (bins : List ℤ) (nbins : ℕ) : Option (List ℤ) :=
  let max_val := dt
  let bin_wid := fdiv dt (Fval.fin nbins)
  (scan_outer_checked
    (fun asa bsb s =>
      bin_store_checked nbins (bin_overlap_num nan_int max_val bin_wid nbins asa bsb) s)
    a na b nb dt 0 0 bins).map Prod.snd

/-- The routine `bin2_overlap` with every read of `a` and `b` and every
increment of `bins` checked against the bounds of the array. -/
def bin2_overlap_checked (nan_int : ℤ) (a : List ℚ) (na : ℕ) (b : List ℚ) (nb : ℕ) (dt : ℚ)
    (bins : List ℤ) (nbins : ℕ) : Option (List ℤ) :=
  let min_val := 0 - dt
  let max_val := dt
  let bin_wid := fdiv (2 * dt) (Fval.fin nbins)
  (scan_outer_checked
    (fun asa bsb s =>
      bin_store_checked nbins (bin2_overlap_num nan_int min_val max_val bin_wid nbins asa bsb) s)
    a na b nb dt 0 0 bins).map Prod.snd

/-! ## The routines are instances of the shared scan -/

theorem count_overlap_inner_eq_scan (b : List ℚ) (nb : ℕ) (alow ahigh : ℚ) :
    ∀ (n sb low count : ℕ), nb - sb = n →
      count_overlap_inner b nb alow ahigh sb low count
        = scan_inner (fun _ c => c + 1) b nb alow ahigh sb low count := by
  intro n
  induction n using Nat.strong_induction_on with
  | _ n ih =>
    intro sb low count hn
    rw [count_overlap_inner, scan_inner]
    split_ifs with h1 h2 h3
    · exact ih (nb - (nb + 1)) (by omega) _ _ _ rfl
    · exact ih (nb - (sb + 1)) (by omega) _ _ _ rfl
    · exact ih (nb - (sb + 1)) (by omega) _ _ _ rfl
    · rfl

theorem count_overlap_outer_eq_scan (a : List ℚ) (na : ℕ) (b : List ℚ) (nb : ℕ) (dt : ℚ) :
    ∀ (n sa low count : ℕ), na - sa = n →
      count_overlap_outer a na b nb dt sa low count
        = scan_outer (fun _ _ c => c + 1) a na b nb dt sa low count := by
  intro n
  induction n using Nat.strong_induction_on with
  | _ n ih =>
    intro sa low count hn
    rw [count_overlap_outer, scan_outer]
    split_ifs with h1
    · simp only [count_overlap_inner_eq_scan b nb _ _ _ _ _ _ rfl]
      exact ih (na - (sa + 1)) (by omega) _ _ _ rfl
    · rfl

theorem bin_overlap_inner_eq_scan (nan_int : ℤ) (max_val : ℚ) (bin_wid : Fval) (nbins : ℕ)
    (asa : ℚ) (b : List ℚ) (nb : ℕ) (alow ahigh : ℚ) :
    ∀ (n sb low : ℕ) (bins : List ℤ), nb - sb = n →
      bin_overlap_inner nan_int max_val bin_wid nbins asa b nb alow ahigh sb low bins
        = scan_inner (bin_overlap_pair nan_int max_val bin_wid nbins asa) b nb alow ahigh
            sb low bins := by
  intro n
  induction n using Nat.strong_induction_on with
  | _ n ih =>
    intro sb low bins hn
    rw [bin_overlap_inner, scan_inner]
    split_ifs with h1 h2 h3
    · exact ih (nb - (nb + 1)) (by omega) _ _ _ rfl
    · exact ih (nb - (sb + 1)) (by omega) _ _ _ rfl
    · exact ih (nb - (sb + 1)) (by omega) _ _ _ rfl
    · rfl

theorem bin_overlap_outer_eq_scan (nan_int : ℤ) (max_val : ℚ) (bin_wid : Fval) (nbins : ℕ)
    (a : List ℚ) (na : ℕ) (b : List ℚ) (nb : ℕ) (dt : ℚ) :
    ∀ (n sa low : ℕ) (bins : List ℤ), na - sa = n →
      bin_overlap_outer nan_int max_val bin_wid nbins a na b nb dt sa low bins
        = scan_outer (bin_overlap_pair nan_int max_val bin_wid nbins) a na b nb dt
            sa low bins := by
  intro n
  induction n using Nat.strong_induction_on with
  | _ n ih =>
    intro sa low bins hn
    rw [bin_overlap_outer, scan_outer]
    split_ifs with h1
    · simp only [bin_overlap_inner_eq_scan nan_int max_val bin_wid nbins _ b nb _ _ _ _ _ _ rfl]
      exact ih (na - (sa + 1)) (by omega) _ _ _ rfl
    · rfl

theorem bin2_overlap_inner_eq_scan (nan_int : ℤ) (min_val max_val : ℚ) (bin_wid : Fval)
    (nbins : ℕ) (asa : ℚ) (b : List ℚ) (nb : ℕ) (alow ahigh : ℚ) :
    ∀ (n sb low : ℕ) (bins : List ℤ), nb - sb = n →
      bin2_overlap_inner nan_int min_val max_val bin_wid nbins asa b nb alow ahigh sb low bins
        = scan_inner (bin2_overlap_pair nan_int min_val max_val bin_wid nbins asa) b nb
            alow ahigh sb low bins := by
  intro n
  induction n using Nat.strong_induction_on with
  | _ n ih =>
    intro sb low bins hn
    rw [bin2_overlap_inner, scan_inner]
    split_ifs with h1 h2 h3
    · exact ih (nb - (nb + 1)) (by omega) _ _ _ rfl
    · exact ih (nb - (sb + 1)) (by omega) _ _ _ rfl
    · exact ih (nb - (sb + 1)) (by omega) _ _ _ rfl
    · rfl

theorem bin2_overlap_outer_eq_scan (nan_int : ℤ) (min_val max_val : ℚ) (bin_wid : Fval)
    (nbins : ℕ) (a : List ℚ) (na : ℕ) (b : List ℚ) (nb : ℕ) (dt : ℚ) :
    ∀ (n sa low : ℕ) (bins : List ℤ), na - sa = n →
      bin2_overlap_outer nan_int min_val max_val bin_wid nbins a na b nb dt sa low bins
        = scan_outer (bin2_overlap_pair nan_int min_val max_val bin_wid nbins) a na b nb dt
            sa low bins := by
  intro n
  induction n using Nat.strong_induction_on with
  | _ n ih =>
    intro sa low bins hn
    rw [bin2_overlap_outer, scan_outer]
    split_ifs with h1
    · simp only [bin2_overlap_inner_eq_scan nan_int min_val max_val bin_wid nbins _ b nb
        _ _ _ _ _ _ rfl]
      exact ih (na - (sa + 1)) (by omega) _ _ _ rfl
    · rfl

/-! ## On ascending trains the scan is the naive enumeration -/

theorem scan_inner_exit {σ : Type} (f : ℚ → σ → σ) (b : List ℚ) (nb : ℕ) (alow ahigh : ℚ)
    (low : ℕ) (s : σ) : scan_inner f b nb alow ahigh (nb + 1) low s = (low, s) := by
  rw [scan_inner]; simp

/-- One inner scan over an ascending `b`, started at `sb`, treats exactly
the elements of `b` from `sb` on that lie in `[alow, ahigh]`, in order, and
every element below the final `low` is smaller than `alow`. -/
theorem scan_inner_spec {σ : Type} (f : ℚ → σ → σ) (b : List ℚ) (hb : b.Sorted (· ≤ ·))
    (alow ahigh : ℚ) :
    ∀ (n sb low : ℕ) (s : σ), b.length - sb = n → (∀ y ∈ b.take low, y < alow) →
      (scan_inner f b b.length alow ahigh sb low s).2
          = ((b.drop sb).filter (fun y => decide (alow ≤ y ∧ y ≤ ahigh))).foldl
              (fun s y => f y s) s
        ∧ ∀ y ∈ b.take (scan_inner f b b.length alow ahigh sb low s).1, y < alow := by
  intro n
  induction n using Nat.strong_induction_on with
  | _ n ih =>
    intro sb low s hn hlow
    rw [scan_inner]
    by_cases h1 : sb < b.length
    · have hsplit : b.take sb ++ (b[sb] :: b.drop (sb + 1)) = b := by
        rw [← List.drop_eq_getElem_cons h1, List.take_append_drop]
      have hsorted : (b.take sb ++ (b[sb] :: b.drop (sb + 1))).Sorted (· ≤ ·) := by
        rw [hsplit]; exact hb
      obtain ⟨-, htail, hcross⟩ := List.pairwise_append.mp hsorted
      have hget : b.getD sb 0 = b[sb] := List.getD_eq_getElem b 0 h1
      rw [dif_pos h1, hget, List.drop_eq_getElem_cons h1]
      by_cases h2 : b[sb] > ahigh
      · rw [if_pos h2, scan_inner_exit]
        refine ⟨?_, hlow⟩
        have hnil : (b[sb] :: b.drop (sb + 1)).filter
            (fun y => decide (alow ≤ y ∧ y ≤ ahigh)) = [] := by
          rw [List.filter_eq_nil_iff]
          intro y hy
          have hle : b[sb] ≤ y := by
            rcases List.mem_cons.mp hy with h | h
            · exact h ▸ le_refl _
            · exact List.rel_of_sorted_cons htail y h
          simp only [decide_eq_true_eq, not_and, not_le]
          intro _
          exact lt_of_lt_of_le h2 hle
        rw [hnil]; rfl
      · rw [if_neg h2]
        by_cases h3 : b[sb] ≥ alow
        · rw [if_pos h3]
          have hkeep : (b[sb] :: b.drop (sb + 1)).filter
              (fun y => decide (alow ≤ y ∧ y ≤ ahigh))
              = b[sb] :: (b.drop (sb + 1)).filter (fun y => decide (alow ≤ y ∧ y ≤ ahigh)) := by
            rw [List.filter_cons_of_pos]
            simp only [decide_eq_true_eq]
            exact ⟨h3, not_lt.mp h2⟩
          rw [hkeep, List.foldl_cons]
          exact ih (b.length - (sb + 1)) (by omega) (sb + 1) low _ rfl hlow
        · rw [if_neg h3]
          have hdrop : (b[sb] :: b.drop (sb + 1)).filter
              (fun y => decide (alow ≤ y ∧ y ≤ ahigh))
              = (b.drop (sb + 1)).filter (fun y => decide (alow ≤ y ∧ y ≤ ahigh)) := by
            rw [List.filter_cons_of_neg]
            simp only [decide_eq_true_eq, not_and]
            intro h; exact absurd h h3
          rw [hdrop]
          refine ih (b.length - (sb + 1)) (by omega) (sb + 1) sb _ rfl ?_
          intro y hy
          exact lt_of_le_of_lt (hcross y hy b[sb] (List.mem_cons_self _ _)) (not_le.mp h3)
    · rw [dif_neg h1, List.drop_eq_nil_of_le (not_lt.mp h1)]
      exact ⟨rfl, hlow⟩

theorem scan_inner_done {σ : Type} (f : ℚ → σ → σ) (b : List ℚ) (nb : ℕ) (alow ahigh : ℚ)
    (sb low : ℕ) (s : σ) (h : ¬ sb < nb) :
    scan_inner f b nb alow ahigh sb low s = (low, s) := by
  rw [scan_inner, dif_neg h]

theorem scan_inner_high {σ : Type} (f : ℚ → σ → σ) (b : List ℚ) (nb : ℕ) (alow ahigh : ℚ)
    (sb low : ℕ) (s : σ) (h : sb < nb) (h1 : b.getD sb 0 > ahigh) :
    scan_inner f b nb alow ahigh sb low s = (low, s) := by
  rw [scan_inner, dif_pos h, if_pos h1, scan_inner_exit]

theorem scan_inner_hit {σ : Type} (f : ℚ → σ → σ) (b : List ℚ) (nb : ℕ) (alow ahigh : ℚ)
    (sb low : ℕ) (s : σ) (h : sb < nb) (h1 : ¬ b.getD sb 0 > ahigh) (h2 : b.getD sb 0 ≥ alow) :
    scan_inner f b nb alow ahigh sb low s
      = scan_inner f b nb alow ahigh (sb + 1) low (f (b.getD sb 0) s) := by
  rw [scan_inner, dif_pos h, if_neg h1, if_pos h2]

theorem scan_inner_early {σ : Type} (f : ℚ → σ → σ) (b : List ℚ) (nb : ℕ) (alow ahigh : ℚ)
    (sb low : ℕ) (s : σ) (h : sb < nb) (h1 : ¬ b.getD sb 0 > ahigh)
    (h2 : ¬ b.getD sb 0 ≥ alow) :
    scan_inner f b nb alow ahigh sb low s = scan_inner f b nb alow ahigh (sb + 1) sb s := by
  rw [scan_inner, dif_pos h, if_neg h1, if_neg h2]

theorem scan_outer_done {σ : Type} (f : ℚ → ℚ → σ → σ) (a : List ℚ) (na : ℕ) (b : List ℚ)
    (nb : ℕ) (dt : ℚ) (sa low : ℕ) (s : σ) (h : ¬ sa < na) :
    scan_outer f a na b nb dt sa low s = (low, s) := by
  rw [scan_outer, dif_neg h]

theorem scan_outer_step {σ : Type} (f : ℚ → ℚ → σ → σ) (a : List ℚ) (na : ℕ) (b : List ℚ)
    (nb : ℕ) (dt : ℚ) (sa low : ℕ) (s : σ) (h : sa < na) :
    scan_outer f a na b nb dt sa low s
      = scan_outer f a na b nb dt (sa + 1)
          (scan_inner (f (a.getD sa 0)) b nb (a.getD sa 0 - dt) (a.getD sa 0 + dt) low low s).1
          (scan_inner (f (a.getD sa 0)) b nb (a.getD sa 0 - dt) (a.getD sa 0 + dt) low low s).2 := by
  rw [scan_outer, dif_pos h]

theorem count_overlap_eq_scan (a : List ℚ) (na : ℕ) (b : List ℚ) (nb : ℕ) (dt : ℚ) :
    count_overlap a na b nb dt = (scan_outer (fun _ _ c => c + 1) a na b nb dt 0 0 0).2 := by
  unfold count_overlap
  rw [count_overlap_outer_eq_scan a na b nb dt _ 0 0 0 rfl]

theorem bin_overlap_eq_scan (nan_int : ℤ) (a : List ℚ) (na : ℕ) (b : List ℚ) (nb : ℕ) (dt : ℚ)
    (bins : List ℤ) (nbins : ℕ) :
    bin_overlap nan_int a na b nb dt bins nbins
      = (scan_outer (bin_overlap_pair nan_int dt (fdiv dt (Fval.fin nbins)) nbins)
          a na b nb dt 0 0 bins).2 := by
  unfold bin_overlap
  simp only [bin_overlap_outer_eq_scan nan_int dt _ nbins a na b nb dt _ 0 0 bins rfl]

theorem bin2_overlap_eq_scan (nan_int : ℤ) (a : List ℚ) (na : ℕ) (b : List ℚ) (nb : ℕ)
    (dt : ℚ) (bins : List ℤ) (nbins : ℕ) :
    bin2_overlap nan_int a na b nb dt bins nbins
      = (scan_outer (bin2_overlap_pair nan_int (0 - dt) dt (fdiv (2 * dt) (Fval.fin nbins)) nbins)
          a na b nb dt 0 0 bins).2 := by
  unfold bin2_overlap
  simp only [bin2_overlap_outer_eq_scan nan_int (0 - dt) dt _ nbins a na b nb dt _ 0 0 bins rfl]

/-! ## Further facts about pair counts and degenerate scans -/

theorem scan_outer_empty_b {σ : Type} (f : ℚ → ℚ → σ → σ) (a : List ℚ) (na : ℕ) (b : List ℚ)
    (dt : ℚ) (s : σ) :
    ∀ (n sa low : ℕ), na - sa = n → (scan_outer f a na b 0 dt sa low s).2 = s := by
  intro n
  induction n using Nat.strong_induction_on with
  | _ n ih =>
    intro sa low hn
    by_cases h : sa < na
    · rw [scan_outer_step _ _ _ _ _ _ _ _ _ h,
        scan_inner_done _ _ _ _ _ _ _ _ (Nat.not_lt_zero low)]
      exact ih (na - (sa + 1)) (by omega) _ _ rfl
    · rw [scan_outer_done _ _ _ _ _ _ _ _ _ h]

/-! ## Claims about `count_overlap` -/

/-- C10: when `a` is empty or `b` is empty, for every `dt`, every `nbins` and
every histogram, `count_overlap` returns `0` and `bin_overlap` and
`bin2_overlap` return the histogram unchanged. -/
theorem empty_input_empty_result (nan_int : ℤ) (l : List ℚ) (n : ℕ) (dt : ℚ) (bins : List ℤ)
    (nbins : ℕ) :
    count_overlap [] 0 l n dt = 0 ∧ count_overlap l n [] 0 dt = 0 ∧
    bin_overlap nan_int [] 0 l n dt bins nbins = bins ∧
    bin_overlap nan_int l n [] 0 dt bins nbins = bins ∧
    bin2_overlap nan_int [] 0 l n dt bins nbins = bins ∧
    bin2_overlap nan_int l n [] 0 dt bins nbins = bins := by
  refine ⟨?_, ?_, ?_, ?_, ?_, ?_⟩
  · rw [count_overlap_eq_scan, scan_outer_done _ _ _ _ _ _ _ _ _ (Nat.lt_irrefl 0)]
  · rw [count_overlap_eq_scan]; exact scan_outer_empty_b _ l n [] dt 0 _ 0 0 rfl
  · rw [bin_overlap_eq_scan, scan_outer_done _ _ _ _ _ _ _ _ _ (Nat.lt_irrefl 0)]
  · rw [bin_overlap_eq_scan]; exact scan_outer_empty_b _ l n [] dt bins _ 0 0 rfl
  · rw [bin2_overlap_eq_scan, scan_outer_done _ _ _ _ _ _ _ _ _ (Nat.lt_irrefl 0)]
  · rw [bin2_overlap_eq_scan]; exact scan_outer_empty_b _ l n [] dt bins _ 0 0 rfl

/-! ## Histograms: what the increments add up to -/

theorem incr_bin_length (bins : List ℤ) (k : ℕ) : (incr_bin bins k).length = bins.length := by
  induction bins generalizing k with
  | nil => rfl
  | cons c cs ih =>
    cases k with
    | zero => rfl
    | succ k => simp [incr_bin, ih]

theorem bin_store_length (nbins : ℕ) (bin_num : ℤ) (bins : List ℤ) :
    (bin_store nbins bin_num bins).length = bins.length := by
  unfold bin_store
  split_ifs
  · rfl
  · exact incr_bin_length _ _

theorem bin_overlap_pair_eq (nan_int : ℤ) (max_val : ℚ) (bin_wid : Fval) (nbins : ℕ) :
    bin_overlap_pair nan_int max_val bin_wid nbins
      = fun x y s => bin_store nbins (bin_overlap_num nan_int max_val bin_wid nbins x y) s :=
  rfl

theorem bin2_overlap_pair_eq (nan_int : ℤ) (min_val max_val : ℚ) (bin_wid : Fval) (nbins : ℕ) :
    bin2_overlap_pair nan_int min_val max_val bin_wid nbins
      = fun x y s =>
          bin_store nbins (bin2_overlap_num nan_int min_val max_val bin_wid nbins x y) s :=
  rfl

/-- Two runs of the inner loop on the same trains, with actions that keep a
relation `R` between their states, end with the same `low` and related
states. -/
theorem scan_inner_rel {σ τ : Type} (R : σ → τ → Prop) (f : ℚ → σ → σ) (g : ℚ → τ → τ)
    (hfg : ∀ y s t, R s t → R (f y s) (g y t)) (b : List ℚ) (nb : ℕ) (alow ahigh : ℚ) :
    ∀ (n sb low : ℕ) (s : σ) (t : τ), nb - sb = n → R s t →
      (scan_inner f b nb alow ahigh sb low s).1 = (scan_inner g b nb alow ahigh sb low t).1 ∧
      R (scan_inner f b nb alow ahigh sb low s).2 (scan_inner g b nb alow ahigh sb low t).2 := by
  intro n
  induction n using Nat.strong_induction_on with
  | _ n ih =>
    intro sb low s t hn hR
    by_cases h : sb < nb
    · by_cases h1 : b.getD sb 0 > ahigh
      · rw [scan_inner_high f _ _ _ _ _ _ _ h h1, scan_inner_high g _ _ _ _ _ _ _ h h1]
        exact ⟨rfl, hR⟩
      · by_cases h2 : b.getD sb 0 ≥ alow
        · rw [scan_inner_hit f _ _ _ _ _ _ _ h h1 h2, scan_inner_hit g _ _ _ _ _ _ _ h h1 h2]
          exact ih (nb - (sb + 1)) (by omega) _ _ _ _ rfl (hfg _ _ _ hR)
        · rw [scan_inner_early f _ _ _ _ _ _ _ h h1 h2,
            scan_inner_early g _ _ _ _ _ _ _ h h1 h2]
          exact ih (nb - (sb + 1)) (by omega) _ _ _ _ rfl hR
    · rw [scan_inner_done f _ _ _ _ _ _ _ h, scan_inner_done g _ _ _ _ _ _ _ h]
      exact ⟨rfl, hR⟩

/-- Two runs of the scan on the same trains, with actions that keep a
relation `R` between their states, end with the same `low` and related
states. -/
theorem scan_outer_rel {σ τ : Type} (R : σ → τ → Prop) (f : ℚ → ℚ → σ → σ)
    (g : ℚ → ℚ → τ → τ) (hfg : ∀ x y s t, R s t → R (f x y s) (g x y t))
    (a : List ℚ) (na : ℕ) (b : List ℚ) (nb : ℕ) (dt : ℚ) :
    ∀ (n sa low : ℕ) (s : σ) (t : τ), na - sa = n → R s t →
      (scan_outer f a na b nb dt sa low s).1 = (scan_outer g a na b nb dt sa low t).1 ∧
      R (scan_outer f a na b nb dt sa low s).2 (scan_outer g a na b nb dt sa low t).2 := by
  intro n
  induction n using Nat.strong_induction_on with
  | _ n ih =>
    intro sa low s t hn hR
    by_cases h : sa < na
    · rw [scan_outer_step f _ _ _ _ _ _ _ _ h, scan_outer_step g _ _ _ _ _ _ _ _ h]
      obtain ⟨h1, h2⟩ := scan_inner_rel R (f (a.getD sa 0)) (g (a.getD sa 0))
        (hfg (a.getD sa 0)) b nb (a.getD sa 0 - dt) (a.getD sa 0 + dt) _ low low s t rfl hR
      rw [h1]
      exact ih (na - (sa + 1)) (by omega) _ _ _ _ rfl h2
    · rw [scan_outer_done f _ _ _ _ _ _ _ _ h, scan_outer_done g _ _ _ _ _ _ _ _ h]
      exact ⟨rfl, hR⟩

/-- A property of the state that every treatment of a pair keeps holds at
the end of the scan. -/
theorem scan_outer_inv {σ : Type} (P : σ → Prop) (f : ℚ → ℚ → σ → σ)
    (hf : ∀ x y s, P s → P (f x y s)) (a : List ℚ) (na : ℕ) (b : List ℚ) (nb : ℕ) (dt : ℚ)
    (sa low : ℕ) (s : σ) (hs : P s) : P (scan_outer f a na b nb dt sa low s).2 :=
  (scan_outer_rel (fun s (_ : Unit) => P s) f (fun _ _ u => u) (fun x y s _ h => hf x y s h)
    a na b nb dt _ sa low s () rfl hs).2

/-- The scan with a binning action keeps the length of the histogram. -/
theorem scan_bins_length (nbins : ℕ) (idx : ℚ → ℚ → ℤ) (a : List ℚ) (na : ℕ) (b : List ℚ)
    (nb : ℕ) (dt : ℚ) (bins : List ℤ) :
    (scan_outer (fun x y s => bin_store nbins (idx x y) s) a na b nb dt 0 0 bins).2.length
      = bins.length :=
  scan_outer_inv (fun (t : List ℤ) => t.length = bins.length)
    (fun x y s => bin_store nbins (idx x y) s)
    (fun x y t ht => (bin_store_length nbins (idx x y) t).trans ht) a na b nb dt 0 0 bins rfl

/-! ## Claims about the effect on the histogram -/

theorem getElem?_eq_some_getD (l : List ℚ) (i : ℕ) (h : i < l.length) :
    l[i]? = some (l.getD i 0) := by
  rw [List.getD_eq_getElem l 0 h, List.getElem?_eq_getElem h]

/-- When the bounds `nb ≤ length b` hold and the checked treatment of an
element succeeds with the result of the unchecked one on every state that
satisfies `P`, the checked inner loop succeeds with the result of the
unchecked inner loop. -/
theorem scan_inner_checked_eq {σ : Type} (P : σ → Prop) (f : ℚ → σ → Option σ)
    (g : ℚ → σ → σ) (hfg : ∀ y s, P s → f y s = some (g y s)) (hP : ∀ y s, P s → P (g y s))
    (b : List ℚ) (nb : ℕ) (hnb : nb ≤ b.length) (alow ahigh : ℚ) :
    ∀ (n sb low : ℕ) (s : σ), nb - sb = n → P s →
      scan_inner_checked f b nb alow ahigh sb low s
          = some (scan_inner g b nb alow ahigh sb low s) ∧
        P (scan_inner g b nb alow ahigh sb low s).2 := by
  intro n
  induction n using Nat.strong_induction_on with
  | _ n ih =>
    intro sb low s hn hs
    rw [scan_inner_checked]
    by_cases h : sb < nb
    · rw [dif_pos h, getElem?_eq_some_getD b sb (by omega)]
      simp only []
      by_cases h1 : b.getD sb 0 > ahigh
      · rw [if_pos h1, scan_inner_high g _ _ _ _ _ _ _ h h1]
        have := ih (nb - (nb + 1)) (by omega) (nb + 1) low s rfl hs
        rw [scan_inner_done g _ _ _ _ _ _ _ (by omega)] at this
        exact this
      · rw [if_neg h1]
        by_cases h2 : b.getD sb 0 ≥ alow
        · rw [if_pos h2, hfg _ _ hs, scan_inner_hit g _ _ _ _ _ _ _ h h1 h2]
          exact ih (nb - (sb + 1)) (by omega) (sb + 1) low _ rfl (hP _ _ hs)
        · rw [if_neg h2, scan_inner_early g _ _ _ _ _ _ _ h h1 h2]
          exact ih (nb - (sb + 1)) (by omega) (sb + 1) sb s rfl hs
    · rw [dif_neg h, scan_inner_done g _ _ _ _ _ _ _ h]
      exact ⟨rfl, hs⟩

/-- The analogue of `scan_inner_checked_eq` for the whole scan, under the
bounds `na ≤ length a` and `nb ≤ length b`. -/
theorem scan_outer_checked_eq {σ : Type} (P : σ → Prop) (f : ℚ → ℚ → σ → Option σ)
    (g : ℚ → ℚ → σ → σ) (hfg : ∀ x y s, P s → f x y s = some (g x y s))
    (hP : ∀ x y s, P s → P (g x y s)) (a : List ℚ) (na : ℕ) (hna : na ≤ a.length)
    (b : List ℚ) (nb : ℕ) (hnb : nb ≤ b.length) (dt : ℚ) :
    ∀ (n sa low : ℕ) (s : σ), na - sa = n → P s →
      scan_outer_checked f a na b nb dt sa low s = some (scan_outer g a na b nb dt sa low s) := by
  intro n
  induction n using Nat.strong_induction_on with
  | _ n ih =>
    intro sa low s hn hs
    rw [scan_outer_checked]
    by_cases h : sa < na
    · obtain ⟨h1, h2⟩ := scan_inner_checked_eq P (f (a.getD sa 0)) (g (a.getD sa 0))
        (hfg (a.getD sa 0)) (hP (a.getD sa 0)) b nb hnb (a.getD sa 0 - dt) (a.getD sa 0 + dt)
        _ low low s rfl hs
      rw [dif_pos h, getElem?_eq_some_getD a sa (by omega)]
      simp only []
      rw [h1]
      simp only []
      rw [scan_outer_step g _ _ _ _ _ _ _ _ h]
      exact ih (na - (sa + 1)) (by omega) (sa + 1) _ _ rfl h2
    · rw [dif_neg h, scan_outer_done g _ _ _ _ _ _ _ _ h]

theorem bin_store_checked_eq (nbins : ℕ) (bin_num : ℤ) (bins : List ℤ)
    (hlen : bins.length = nbins) :
    bin_store_checked nbins bin_num bins = some (bin_store nbins bin_num bins) := by
  unfold bin_store_checked bin_store
  by_cases h : bin_num < 0 ∨ bin_num ≥ nbins
  · rw [if_pos h, if_pos h]
  · rw [if_neg h, if_neg h, if_pos (by omega)]

/-- C12: out-of-range bin numbers are skipped, never written.  For every
input (ascending or not, every `dt`, every `nbins`) with `na = length a`,
`nb = length b` and a histogram of length `nbins`: the runs of `bin_overlap`
and `bin2_overlap` in which every read of `a` and `b` and every increment of
`bins` is checked against the bounds succeed, with the result of the
routines; a bin number outside `[0, nbins - 1]` leaves the histogram as it
is, any other one increments the bin of that number; and the histogram
returned has the length of the one passed. -/
theorem out_of_range_bins_skipped (nan_int : ℤ) (a b : List ℚ) (dt : ℚ) (bins : List ℤ)
    (nbins : ℕ) (hlen : bins.length = nbins) :
    bin_overlap_checked nan_int a a.length b b.length dt bins nbins
      = some (bin_overlap nan_int a a.length b b.length dt bins nbins) ∧
    bin2_overlap_checked nan_int a a.length b b.length dt bins nbins
      = some (bin2_overlap nan_int a a.length b b.length dt bins nbins) ∧
    (∀ bin_num : ℤ, bin_num < 0 ∨ bin_num ≥ nbins →
      bin_store_checked nbins bin_num bins = some bins ∧ bin_store nbins bin_num bins = bins) ∧
    (∀ bin_num : ℤ, ¬ (bin_num < 0 ∨ bin_num ≥ nbins) →
      bin_num.toNat < bins.length ∧
      bin_store_checked nbins bin_num bins = some (incr_bin bins bin_num.toNat)) ∧
    (bin_overlap nan_int a a.length b b.length dt bins nbins).length = bins.length ∧
    (bin2_overlap nan_int a a.length b b.length dt bins nbins).length = bins.length := by
  refine ⟨?_, ?_, ?_, ?_, ?_, ?_⟩
  · unfold bin_overlap_checked
    simp only []
    rw [scan_outer_checked_eq (fun s : List ℤ => s.length = nbins) _
      (bin_overlap_pair nan_int dt (fdiv dt (Fval.fin nbins)) nbins)
      (fun x y s hs => bin_store_checked_eq nbins _ s hs)
      (fun x y s hs => (bin_store_length nbins _ s).trans hs)
      a a.length (le_refl _) b b.length (le_refl _) dt _ 0 0 bins rfl hlen,
      bin_overlap_eq_scan]
    rfl
  · unfold bin2_overlap_checked
    simp only []
    rw [scan_outer_checked_eq (fun s : List ℤ => s.length = nbins) _
      (bin2_overlap_pair nan_int (0 - dt) dt (fdiv (2 * dt) (Fval.fin nbins)) nbins)
      (fun x y s hs => bin_store_checked_eq nbins _ s hs)
      (fun x y s hs => (bin_store_length nbins _ s).trans hs)
      a a.length (le_refl _) b b.length (le_refl _) dt _ 0 0 bins rfl hlen,
      bin2_overlap_eq_scan]
    rfl
  · intro bin_num h
    unfold bin_store_checked bin_store
    rw [if_pos h, if_pos h]
    exact ⟨rfl, rfl⟩
  · intro bin_num h
    have hlt : bin_num.toNat < bins.length := by omega
    unfold bin_store_checked
    rw [if_neg h, if_pos hlt]
    exact ⟨hlt, rfl⟩
  · rw [bin_overlap_eq_scan, bin_overlap_pair_eq]
    exact scan_bins_length nbins _ a a.length b b.length dt bins
  · rw [bin2_overlap_eq_scan, bin2_overlap_pair_eq]
    exact scan_bins_length nbins _ a a.length b b.length dt bins

/-- An instance of C12 at `dt = 0`, where every pair in the window has the
quotient `0 / 0` and the bin number `nan_int`, here below zero. -/
theorem out_of_range_bins_skipped_witness :
    ([0, 0] : List ℤ).length = 2 ∧
    bin_overlap_checked (-2147483648) [5, 0] ([5, 0] : List ℚ).length [0, 1, 5]
        ([0, 1, 5] : List ℚ).length 0 [0, 0] 2
      = some (bin_overlap (-2147483648) [5, 0] ([5, 0] : List ℚ).length [0, 1, 5]
          ([0, 1, 5] : List ℚ).length 0 [0, 0] 2) :=
  ⟨rfl, (out_of_range_bins_skipped (-2147483648) [5, 0] [0, 1, 5] 0 [0, 0] 2 rfl).1⟩

/-- One inner loop with the history of `low`: dropping the history gives the
inner loop itself; the history stays non-decreasing, every recorded value is
at most the current `low` and below `nb`, and `low` is the last recorded
value (or the starting value `low0` when nothing was recorded). -/
theorem scan_inner_traced_spec {σ : Type} (f : ℚ → σ → σ) (b : List ℚ) (nb : ℕ)
    (alow ahigh : ℚ) (low0 : ℕ) :
    ∀ (n sb low : ℕ) (s : σ) (lows : List ℕ), nb - sb = n → low ≤ sb →
      lows.Pairwise (· ≤ ·) → (∀ v ∈ lows, v ≤ low ∧ v < nb) → low = lows.getLastD low0 →
      ((scan_inner_traced f b nb alow ahigh sb low s lows).1,
          (scan_inner_traced f b nb alow ahigh sb low s lows).2.1)
        = scan_inner f b nb alow ahigh sb low s ∧
      (scan_inner_traced f b nb alow ahigh sb low s lows).2.2.Pairwise (· ≤ ·) ∧
      (∀ v ∈ (scan_inner_traced f b nb alow ahigh sb low s lows).2.2,
        v ≤ (scan_inner_traced f b nb alow ahigh sb low s lows).1 ∧ v < nb) ∧
      (scan_inner_traced f b nb alow ahigh sb low s lows).1
        = (scan_inner_traced f b nb alow ahigh sb low s lows).2.2.getLastD low0 := by
  intro n
  induction n using Nat.strong_induction_on with
  | _ n ih =>
    intro sb low s lows hn hle hpw hall hlast
    rw [scan_inner_traced]
    by_cases h : sb < nb
    · rw [dif_pos h]
      by_cases h1 : b.getD sb 0 > ahigh
      · rw [if_pos h1, scan_inner_high f _ _ _ _ _ _ _ h h1]
        have := ih (nb - (nb + 1)) (by omega) (nb + 1) low s lows rfl (by omega) hpw hall hlast
        rw [scan_inner_done f _ _ _ _ _ _ _ (by omega)] at this
        exact this
      · rw [if_neg h1]
        by_cases h2 : b.getD sb 0 ≥ alow
        · rw [if_pos h2, scan_inner_hit f _ _ _ _ _ _ _ h h1 h2]
          exact ih (nb - (sb + 1)) (by omega) (sb + 1) low _ lows rfl (by omega) hpw hall hlast
        · rw [if_neg h2, scan_inner_early f _ _ _ _ _ _ _ h h1 h2]
          refine ih (nb - (sb + 1)) (by omega) (sb + 1) sb s (lows ++ [sb]) rfl (by omega)
            ?_ ?_ ?_
          · rw [List.pairwise_append]
            refine ⟨hpw, List.pairwise_singleton _ _, ?_⟩
            intro v hv w hw
            rw [List.mem_singleton] at hw
            have := (hall v hv).1
            omega
          · intro v hv
            rcases List.mem_append.mp hv with hv | hv
            · have := hall v hv
              omega
            · rw [List.mem_singleton] at hv
              omega
          · rw [List.getLastD_concat]
    · rw [dif_neg h, scan_inner_done f _ _ _ _ _ _ _ h]
      exact ⟨rfl, hpw, hall, hlast⟩

/-- The scan with the history of `low`: dropping the history gives the scan
itself; the history is non-decreasing, all its values are below `nb`, and the
final `low` is its last value (or the starting value `low0`). -/
theorem scan_outer_traced_spec {σ : Type} (f : ℚ → ℚ → σ → σ) (a : List ℚ) (na : ℕ)
    (b : List ℚ) (nb : ℕ) (dt : ℚ) (low0 : ℕ) :
    ∀ (n sa low : ℕ) (s : σ) (lows : List ℕ), na - sa = n →
      lows.Pairwise (· ≤ ·) → (∀ v ∈ lows, v ≤ low ∧ v < nb) → low = lows.getLastD low0 →
      ((scan_outer_traced f a na b nb dt sa low s lows).1,
          (scan_outer_traced f a na b nb dt sa low s lows).2.1)
        = scan_outer f a na b nb dt sa low s ∧
      (scan_outer_traced f a na b nb dt sa low s lows).2.2.Pairwise (· ≤ ·) ∧
      (∀ v ∈ (scan_outer_traced f a na b nb dt sa low s lows).2.2,
        v ≤ (scan_outer_traced f a na b nb dt sa low s lows).1 ∧ v < nb) ∧
      (scan_outer_traced f a na b nb dt sa low s lows).1
        = (scan_outer_traced f a na b nb dt sa low s lows).2.2.getLastD low0 := by
  intro n
  induction n using Nat.strong_induction_on with
  | _ n ih =>
    intro sa low s lows hn hpw hall hlast
    rw [scan_outer_traced]
    by_cases h : sa < na
    · rw [dif_pos h, scan_outer_step f _ _ _ _ _ _ _ _ h]
      obtain ⟨h1, h2, h3, h4⟩ := scan_inner_traced_spec (f (a.getD sa 0)) b nb
        (a.getD sa 0 - dt) (a.getD sa 0 + dt) low0 _ low low s lows rfl (le_refl _) hpw hall
        hlast
      simp only []
      rw [← h1]
      exact ih (na - (sa + 1)) (by omega) (sa + 1) _ _ _ rfl h2 h3 h4
    · rw [dif_neg h, scan_outer_done f _ _ _ _ _ _ _ _ h]
      exact ⟨rfl, hpw, hall, hlast⟩

/-- C14: the cursor `low` never retreats.  In `count_overlap`, `bin_overlap`
and `bin2_overlap`, for every input (ascending or not), `low` starts at `0`
and, with `lows` the list of the values the assignments `low = sb` give to
`low` in the order of the run: the sequence `0 :: lows` is non-decreasing,
every value of `lows` is below `nb`, and the final `low` is the last value of
`0 :: lows`.  The three routines are the runs with their own treatment of a
pair, so the statement is made for every treatment `f`. -/
theorem low_never_retreats (nan_int : ℤ) (a : List ℚ) (na : ℕ) (b : List ℚ) (nb : ℕ) (dt : ℚ)
    (bins : List ℤ) (nbins : ℕ) :
    count_overlap a na b nb dt
      = (scan_outer_traced (fun _ _ c => c + 1) a na b nb dt 0 0 0 []).2.1 ∧
    bin_overlap nan_int a na b nb dt bins nbins
      = (scan_outer_traced (bin_overlap_pair nan_int dt (fdiv dt (Fval.fin nbins)) nbins)
          a na b nb dt 0 0 bins []).2.1 ∧
    bin2_overlap nan_int a na b nb dt bins nbins
      = (scan_outer_traced
          (bin2_overlap_pair nan_int (0 - dt) dt (fdiv (2 * dt) (Fval.fin nbins)) nbins)
          a na b nb dt 0 0 bins []).2.1 ∧
    ∀ (σ : Type) (f : ℚ → ℚ → σ → σ) (s : σ),
      (0 :: (scan_outer_traced f a na b nb dt 0 0 s []).2.2).Pairwise (· ≤ ·) ∧
      (∀ v ∈ (scan_outer_traced f a na b nb dt 0 0 s []).2.2, v < nb) ∧
      (scan_outer_traced f a na b nb dt 0 0 s []).1
        = (scan_outer_traced f a na b nb dt 0 0 s []).2.2.getLastD 0 ∧
      (scan_outer_traced f a na b nb dt 0 0 s []).1 = (scan_outer f a na b nb dt 0 0 s).1 := by
  have hspec : ∀ (σ : Type) (f : ℚ → ℚ → σ → σ) (s : σ), _ :=
    fun σ f s => scan_outer_traced_spec f a na b nb dt 0 _ 0 0 s [] rfl List.Pairwise.nil
      (by simp) rfl
  refine ⟨?_, ?_, ?_, ?_⟩
  · rw [count_overlap_eq_scan, ← (hspec ℕ _ 0).1]
  · rw [bin_overlap_eq_scan, ← (hspec (List ℤ) _ bins).1]
  · rw [bin2_overlap_eq_scan, ← (hspec (List ℤ) _ bins).1]
  · intro σ f s
    obtain ⟨h1, h2, h3, h4⟩ := hspec σ f s
    refine ⟨?_, fun v hv => (h3 v hv).2, h4, ?_⟩
    · rw [List.pairwise_cons]
      exact ⟨fun v _ => Nat.zero_le v, h2⟩
    · rw [← h1]

/-- Running the outer loop up to `i` first and then from `i` on is running
it up to `na`: the result of the run bounded by `i` is the state at the start
of the iteration for `a[i]`. -/
theorem scan_outer_split {σ : Type} (f : ℚ → ℚ → σ → σ) (a : List ℚ) (na : ℕ) (b : List ℚ)
    (nb : ℕ) (dt : ℚ) (i : ℕ) (hi : i ≤ na) :
    ∀ (n sa low : ℕ) (s : σ), i - sa = n → sa ≤ i →
      scan_outer f a na b nb dt sa low s
        = scan_outer f a na b nb dt i (scan_outer f a i b nb dt sa low s).1
            (scan_outer f a i b nb dt sa low s).2 := by
  intro n
  induction n using Nat.strong_induction_on with
  | _ n ih =>
    intro sa low s hn hsa
    by_cases h : sa < i
    · rw [scan_outer_step f a na _ _ _ _ _ _ (by omega), scan_outer_step f a i _ _ _ _ _ _ h]
      exact ih (i - (sa + 1)) (by omega) (sa + 1) _ _ rfl (by omega)
    · have hsa2 : sa = i := by omega
      rw [scan_outer_done f a i _ _ _ _ _ _ h, hsa2]

/-- On ascending trains, every element of `b` below the cursor at the end of
a run bounded by `na` is too early for every element of `a` from `na` on. -/
theorem scan_outer_low_inv {σ : Type} (f : ℚ → ℚ → σ → σ) (a b : List ℚ)
    (ha : a.Sorted (· ≤ ·)) (hb : b.Sorted (· ≤ ·)) (dt : ℚ) (na : ℕ) (hna : na ≤ a.length) :
    ∀ (n sa low : ℕ) (s : σ), na - sa = n → sa ≤ na →
      (∀ y ∈ b.take low, ∀ x ∈ a.drop sa, y < x - dt) →
      ∀ y ∈ b.take (scan_outer f a na b b.length dt sa low s).1, ∀ x ∈ a.drop na,
        y < x - dt := by
  intro n
  induction n using Nat.strong_induction_on with
  | _ n ih =>
    intro sa low s hn hsa hlow
    by_cases h : sa < na
    · have h1 : sa < a.length := by omega
      have hget : a.getD sa 0 = a[sa] := List.getD_eq_getElem a 0 h1
      have hsorted : (a[sa] :: a.drop (sa + 1)).Sorted (· ≤ ·) := by
        rw [← List.drop_eq_getElem_cons h1]
        exact List.Pairwise.sublist (List.drop_sublist sa a) ha
      have hmem : a[sa] ∈ a.drop sa := by
        rw [List.drop_eq_getElem_cons h1]; exact List.mem_cons_self _ _
      have hlow0 : ∀ y ∈ b.take low, y < a[sa] - dt := fun y hy => hlow y hy _ hmem
      obtain ⟨-, hlow1⟩ :=
        scan_inner_spec (f a[sa]) b hb (a[sa] - dt) (a[sa] + dt) _ low low s rfl hlow0
      rw [scan_outer_step f _ _ _ _ _ _ _ _ h, hget]
      refine ih (na - (sa + 1)) (by omega) (sa + 1) _ _ rfl (by omega) ?_
      intro y hy x hx
      have hle : a[sa] ≤ x := List.rel_of_sorted_cons hsorted x hx
      have := hlow1 y hy
      linarith
    · have hsa2 : sa = na := by omega
      rw [scan_outer_done f _ _ _ _ _ _ _ _ h]
      rw [hsa2] at hlow
      exact hlow

/-- The cursor at the end of an inner loop is the one it started with or an
index of `b`. -/
theorem scan_inner_low_lt {σ : Type} (f : ℚ → σ → σ) (b : List ℚ) (nb : ℕ) (alow ahigh : ℚ) :
    ∀ (n sb low : ℕ) (s : σ), nb - sb = n →
      (scan_inner f b nb alow ahigh sb low s).1 = low ∨
        (scan_inner f b nb alow ahigh sb low s).1 < nb := by
  intro n
  induction n using Nat.strong_induction_on with
  | _ n ih =>
    intro sb low s hn
    by_cases h : sb < nb
    · by_cases h1 : b.getD sb 0 > ahigh
      · rw [scan_inner_high f _ _ _ _ _ _ _ h h1]; exact Or.inl rfl
      · by_cases h2 : b.getD sb 0 ≥ alow
        · rw [scan_inner_hit f _ _ _ _ _ _ _ h h1 h2]
          exact ih (nb - (sb + 1)) (by omega) _ _ _ rfl
        · rw [scan_inner_early f _ _ _ _ _ _ _ h h1 h2]
          rcases ih (nb - (sb + 1)) (by omega) (sb + 1) sb s rfl with h3 | h3
          · exact Or.inr (by omega)
          · exact Or.inr h3
    · rw [scan_inner_done f _ _ _ _ _ _ _ h]; exact Or.inl rfl

/-- The cursor at the end of a run of the scan is the one it started with or
an index of `b`. -/
theorem scan_outer_low_lt {σ : Type} (f : ℚ → ℚ → σ → σ) (a : List ℚ) (na : ℕ) (b : List ℚ)
    (nb : ℕ) (dt : ℚ) :
    ∀ (n sa low : ℕ) (s : σ), na - sa = n →
      (scan_outer f a na b nb dt sa low s).1 = low ∨
        (scan_outer f a na b nb dt sa low s).1 < nb := by
  intro n
  induction n using Nat.strong_induction_on with
  | _ n ih =>
    intro sa low s hn
    by_cases h : sa < na
    · rw [scan_outer_step f _ _ _ _ _ _ _ _ h]
      rcases ih (na - (sa + 1)) (by omega) (sa + 1)
        (scan_inner (f (a.getD sa 0)) b nb (a.getD sa 0 - dt) (a.getD sa 0 + dt) low low s).1
        (scan_inner (f (a.getD sa 0)) b nb (a.getD sa 0 - dt) (a.getD sa 0 + dt) low low s).2
        rfl with h3 | h3
      · rw [h3]
        exact scan_inner_low_lt _ b nb _ _ _ low low s rfl
      · exact Or.inr h3
    · rw [scan_outer_done f _ _ _ _ _ _ _ _ h]; exact Or.inl rfl

/-- C15: skipped elements can never qualify.  For ascending `a` and `b` (and
every `dt`), the run of the outer loop of `count_overlap` bounded by `i` gives
the state at the start of the iteration for `a[i]`; with `low` the cursor of
that state, every `j < low` is an index of `b` with `b[j] < a[i'] - dt` for
every `i' ≥ i`, so that `(i', j)` is not a qualifying pair. -/
theorem skipped_never_qualify (a b : List ℚ) (dt : ℚ) (ha : a.Sorted (· ≤ ·))
    (hb : b.Sorted (· ≤ ·)) (i : ℕ) (hi : i < a.length) :
    count_overlap_outer a a.length b b.length dt 0 0 0
      = count_overlap_outer a a.length b b.length dt i
          (count_overlap_outer a i b b.length dt 0 0 0).1
          (count_overlap_outer a i b b.length dt 0 0 0).2 ∧
    ∀ j, j < (count_overlap_outer a i b b.length dt 0 0 0).1 →
      j < b.length ∧
      ∀ i', i ≤ i' → i' < a.length →
        b.getD j 0 < a.getD i' 0 - dt ∧
        ¬ (a.getD i' 0 - dt ≤ b.getD j 0 ∧ b.getD j 0 ≤ a.getD i' 0 + dt) := by
  have e1 := count_overlap_outer_eq_scan a a.length b b.length dt
  have e2 := count_overlap_outer_eq_scan a i b b.length dt
  constructor
  · rw [e1 _ 0 0 0 rfl, e1 _ i _ _ rfl, e2 _ 0 0 0 rfl]
    exact scan_outer_split _ a a.length b b.length dt i (le_of_lt hi) _ 0 0 0 rfl (Nat.zero_le i)
  · rw [e2 _ 0 0 0 rfl]
    intro j hj
    have hjb : j < b.length := by
      rcases scan_outer_low_lt (fun _ _ c => c + 1) a i b b.length dt _ 0 0 0 rfl with h | h
      · omega
      · omega
    refine ⟨hjb, ?_⟩
    intro i' hi1 hi2
    have hinv := scan_outer_low_inv (fun _ _ c => c + 1) a b ha hb dt i (le_of_lt hi) _ 0 0 0 rfl
      (Nat.zero_le i) (by simp)
    have hy : b.getD j 0 ∈ b.take (scan_outer (fun _ _ c => c + 1) a i b b.length dt 0 0 0).1 := by
      rw [List.getD_eq_getElem b 0 hjb, List.mem_take_iff_getElem]
      exact ⟨j, by omega, rfl⟩
    have hx : a.getD i' 0 ∈ a.drop i := by
      rw [List.getD_eq_getElem a 0 hi2, List.mem_drop_iff_getElem]
      exact ⟨i' - i, by omega, by congr 1; omega⟩
    have hlt := hinv _ hy _ hx
    exact ⟨hlt, fun h => absurd h.1 (not_le.mpr hlt)⟩

/-- An instance of C15: the start of the iteration for `a[1]` on
`a = [5, 6, 7]`, `b = [0, 1, 5, 6]`, `dt = 0`, where the cursor is `1`. -/
theorem skipped_never_qualify_witness :
    List.Sorted (· ≤ ·) [(5 : ℚ), 6, 7] ∧ List.Sorted (· ≤ ·) [(0 : ℚ), 1, 5, 6] ∧
    1 < ([5, 6, 7] : List ℚ).length ∧
    (count_overlap_outer [5, 6, 7] 1 [0, 1, 5, 6] ([0, 1, 5, 6] : List ℚ).length 0 0 0 0).1 = 1 ∧
    ∀ j, j < (count_overlap_outer [5, 6, 7] 1 [0, 1, 5, 6]
        ([0, 1, 5, 6] : List ℚ).length 0 0 0 0).1 →
      j < ([0, 1, 5, 6] : List ℚ).length ∧
      ∀ i', 1 ≤ i' → i' < ([5, 6, 7] : List ℚ).length →
        ([0, 1, 5, 6] : List ℚ).getD j 0 < ([5, 6, 7] : List ℚ).getD i' 0 - 0 ∧
        ¬ (([5, 6, 7] : List ℚ).getD i' 0 - 0 ≤ ([0, 1, 5, 6] : List ℚ).getD j 0 ∧
          ([0, 1, 5, 6] : List ℚ).getD j 0 ≤ ([5, 6, 7] : List ℚ).getD i' 0 + 0) :=
  ⟨by norm_num, by norm_num, by decide, by
    rw [count_overlap_outer_eq_scan _ _ _ _ _ _ 0 0 0 rfl]
    norm_num [scan_outer_step, scan_outer_done, scan_inner_done, scan_inner_high,
      scan_inner_hit, scan_inner_early],
    (skipped_never_qualify [5, 6, 7] [0, 1, 5, 6] 0 (by norm_num) (by norm_num) 1
      (by decide)).2⟩

/-- C16: the code at a failing input.  On the ascending trains `a = [5, 6]`,
`b = [0, 5]` with `dt = 0`, the inner loop for `a[0] = 5` ends with `low = 0`
(and `count = 1`) although `b[0] = 0 < a[0] - dt`: the assignment `low = sb`
leaves the cursor on the too-early element, not past it, and the iteration
for `a[1]` starts its inner loop at that element again. -/
theorem low_stays_on_too_early_element :
    List.Sorted (· ≤ ·) [(5 : ℚ), 6] ∧ List.Sorted (· ≤ ·) [(0 : ℚ), 5] ∧
    count_overlap_inner [0, 5] 2 (([5, 6] : List ℚ).getD 0 0 - 0)
      (([5, 6] : List ℚ).getD 0 0 + 0) 0 0 0 = (0, 1) ∧
    ([0, 5] : List ℚ).getD 0 0 < ([5, 6] : List ℚ).getD 0 0 - 0 ∧
    ¬ (0 < (count_overlap_inner [0, 5] 2 (([5, 6] : List ℚ).getD 0 0 - 0)
      (([5, 6] : List ℚ).getD 0 0 + 0) 0 0 0).1) ∧
    count_overlap_outer [5, 6] 1 [0, 5] 2 0 0 0 0 = (0, 1) := by
  have h1 : count_overlap_inner [0, 5] 2 (([5, 6] : List ℚ).getD 0 0 - 0)
      (([5, 6] : List ℚ).getD 0 0 + 0) 0 0 0 = (0, 1) := by
    rw [count_overlap_inner_eq_scan _ _ _ _ _ _ _ _ rfl]
    norm_num [scan_inner_done, scan_inner_high, scan_inner_hit, scan_inner_early]
  refine ⟨by norm_num, by norm_num, h1, by norm_num, by rw [h1]; decide, ?_⟩
  rw [count_overlap_outer_eq_scan _ _ _ _ _ _ 0 0 0 rfl]
  norm_num [scan_outer_step, scan_outer_done, scan_inner_done, scan_inner_high,
    scan_inner_hit, scan_inner_early]

/-! ## Claims about the bin number of a pair -/

end Sjemea
